import Mathlib

/-!
Verification of the `rust-calculator` expression evaluator: lexer
(`src/token.rs`), shunting-yard parser, and AST evaluator (`src/eval.rs`).

Modelling conventions:
* Rust `f32` number payloads are modelled as exact rationals (`ℚ`).  Every
  numeric literal and every arithmetic fact stated below stays inside the
  range where `f32` arithmetic is exact (small integers and short decimal
  fractions), so the exact-rational model and the float code agree on all
  values mentioned in the theorems.  The evaluator is additionally stated
  parametrically over an arbitrary interpretation of the arithmetic
  primitives, so nothing below depends on properties `f32` does not have.
* A Rust panic (`unwrap` failing, or the tokenizer loop running out of
  characters unexpectedly) is modelled by the `none` value of an outer
  `Option` layer; ordinary `Result` values are `some (Except ...)`.
-/

/-- `Token` from `src/token.rs` (the enum `Token`).  The `f32` payload of
`Number` is modelled as an exact rational. -/
inductive Token where
  | Plus
  | Minus
  | UnaryPlus
  | UnaryMinus
  | Times
  | TimesTimes
  | Slash
  | ParenStart
  | ParenEnd
  | E
  | Pi
  | Number (v : ℚ)
  | Ignore
deriving DecidableEq, Repr

/-- `Token::is_atom` from `src/token.rs`. -/
def Token.is_atom : Token → Bool
  | .E | .Pi | .Number _ => true
  | _ => false

/-- `Token::is_op` from `src/token.rs`. -/
def Token.is_op : Token → Bool
  | .Plus | .Minus | .UnaryPlus | .UnaryMinus | .Times | .Slash | .TimesTimes => true
  | _ => false

/-- `Token::is_bin_op` from `src/token.rs`. -/
def Token.is_bin_op : Token → Bool
  | .Plus | .Minus | .Times | .Slash | .TimesTimes => true
  | _ => false

/-- `Token::is_unary_op` from `src/token.rs`. -/
def Token.is_unary_op : Token → Bool
  | .UnaryPlus | .UnaryMinus => true
  | _ => false

/-- `Token::is_left_assoc` from `src/token.rs`. -/
def Token.is_left_assoc : Token → Bool
  | .Plus | .Minus | .Times => true
  | _ => false

/-- `Token::op_prec` from `src/token.rs`. -/
def Token.op_prec : Token → Nat
  | .Plus | .Minus => 1
  | .Times | .Slash => 2
  | .TimesTimes => 3
  | .UnaryPlus | .UnaryMinus => 4
  | _ => 0

/-- `Token::is_before_unary` from `src/token.rs`: true on operators and on
an opening parenthesis. -/
def Token.is_before_unary (t : Token) : Bool :=
  t.is_op || t == Token.ParenStart

/-- `Token::is_paren` from `src/token.rs`. -/
def Token.is_paren : Token → Bool
  | .ParenStart | .ParenEnd => true
  | _ => false

/-- `ParserError` from `src/lib.rs` (`errors` module).  Error message
strings are abridged but keep one value per source message. -/
inductive ParserError where
  | Tokenize (msg : String)
  | MismatchedParenthesis
  | TooMuchOperands
  | NotEnoughOperands
  | UnexpectedOperator (t : Token)
  | UnsupportedOperator (t : Token)
deriving DecidableEq, Repr

instance {ε α : Type} [DecidableEq ε] [DecidableEq α] : DecidableEq (Except ε α) := fun x y =>
  match x, y with
  | .ok a, .ok b =>
    if h : a = b then isTrue (by rw [h]) else isFalse (fun hh => h (Except.ok.inj hh))
  | .error a, .error b =>
    if h : a = b then isTrue (by rw [h]) else isFalse (fun hh => h (Except.error.inj hh))
  | .ok _, .error _ => isFalse (fun hh => Except.noConfusion hh)
  | .error _, .ok _ => isFalse (fun hh => Except.noConfusion hh)

/-- The `while let Some(digit @ '0'..='9') = iterator.peek()` loops of
`tokenize_number` in `src/token.rs`: splits off the longest prefix of
decimal digits. -/
def takeDigits : List Char → List Char × List Char
  | [] => ([], [])
  | c :: cs =>
    if c.isDigit then
      let r := takeDigits cs
      (c :: r.1, r.2)
    else ([], c :: cs)

/-- Decimal value of a digit string (the integer read left to right). -/
def digitsToNat (ds : List Char) : Nat :=
  ds.foldl (fun n c => 10 * n + (c.toNat - 48)) 0

/-- Exact decimal value of an accumulated number string (digits with at
most one dot), modelling what `str::parse::<f32>` computes on the strings
`tokenize_number` builds (exactly, in the rational model). -/
def parseDecimal (acc : List Char) : ℚ :=
  let intPart := acc.takeWhile (fun c => c != '.')
  match acc.dropWhile (fun c => c != '.') with
  | _ :: frac => mkRat (digitsToNat intPart * 10 ^ frac.length + digitsToNat frac) (10 ^ frac.length)
  | [] => (digitsToNat intPart : ℚ)

/-- Acceptance condition of Rust float parsing, restricted to the character
universe `tokenize_number` can accumulate (digits and dots): at least one
digit, only digits or dots, and at most one dot. -/
def validFloatChars (acc : List Char) : Bool :=
  acc.any Char.isDigit
    && acc.all (fun c => c.isDigit || c == '.')
    && (acc.filter (fun c => c == '.')).length ≤ 1

/-- Model of `acc.parse::<f32>()` in `src/token.rs`: succeeds exactly on
valid float strings, returning the exact decimal value. -/
def rustParseF32 (acc : List Char) : Option ℚ :=
  if validFloatChars acc then some (parseDecimal acc) else none

/-- The tail of `tokenize_number` (`src/token.rs`): run float parsing on
the accumulated string and unwrap.  The source's `unwrap` is modelled by
the inner `Option` (`.ok none` is the panic). -/
def tokenize_number_go (acc rest : List Char) :
    Except ParserError (Option (Token × List Char)) :=
  match rustParseF32 acc with
  | some v => .ok (some (Token.Number v, rest))
  | none => .ok none

/-- `tokenize_number` from `src/token.rs`: read the digits after the first
character; a lone dot is a tokenization error; if the first character was
not a dot, optionally read a dot and a second digit run; finally parse the
accumulated string.  Returns the token and the unconsumed characters. -/
def tokenize_number (first_digit : Char) (cs : List Char) :
    Except ParserError (Option (Token × List Char)) :=
  if first_digit == '.' && (first_digit :: (takeDigits cs).1).length == 1 then
    .error (.Tokenize "A single dot is not a valid number !")
  else if first_digit != '.' then
    match (takeDigits cs).2 with
    | '.' :: cs2 =>
      tokenize_number_go (first_digit :: (takeDigits cs).1 ++ '.' :: (takeDigits cs2).1)
        (takeDigits cs2).2
    | _ => tokenize_number_go (first_digit :: (takeDigits cs).1) (takeDigits cs).2
  else tokenize_number_go (first_digit :: (takeDigits cs).1) (takeDigits cs).2

/-- One iteration of the `while let Some(c) = iterator.next()` loop in
`tokenize` (`src/token.rs`): given the tokens accepted so far, the current
character and the remaining characters, produce the next token and the rest
of the input (`some (.ok ...)`), a tokenization error, or a panic
(`none`). -/
def nextToken (tokens : List Token) (c : Char) (cs : List Char) :
    Option (Except ParserError (Token × List Char)) :=
  match c with
  | '+' =>
    some (.ok
      ((match tokens.getLast? with
        | some prev => if prev.is_before_unary then Token.UnaryPlus else Token.Plus
        | none => Token.UnaryPlus), cs))
  | '-' =>
    some (.ok
      ((match tokens.getLast? with
        | some prev => if prev.is_before_unary then Token.UnaryMinus else Token.Minus
        | none => Token.UnaryMinus), cs))
  | '*' =>
    match cs with
    | '*' :: cs2 => some (.ok (Token.TimesTimes, cs2))
    | _ => some (.ok (Token.Times, cs))
  | '/' => some (.ok (Token.Slash, cs))
  | '(' => some (.ok (Token.ParenStart, cs))
  | ')' => some (.ok (Token.ParenEnd, cs))
  | 'e' => some (.ok (Token.E, cs))
  | 'p' =>
    match cs with
    | 'i' :: cs2 => some (.ok (Token.Pi, cs2))
    | _ => some (.error (.Tokenize "Expected token pi"))
  | c =>
    if c.isDigit then
      match tokenize_number c cs with
      | .error e => some (.error e)
      | .ok none => none
      | .ok (some (t, rest)) => some (.ok (t, rest))
    else if c == '.' then
      match tokenize_number c cs with
      | .error e => some (.error e)
      | .ok none => none
      | .ok (some (t, rest)) => some (.ok (t, rest))
    else if c.isWhitespace then some (.ok (Token.Ignore, cs))
    else some (.error (.Tokenize ("Unexpected token " ++ c.toString)))

/-- The main loop of `tokenize` (`src/token.rs`), fuelled by the number of
remaining characters (each iteration consumes at least one, so fuel equal to
the input length never runs out; running out is modelled as the panic value
`none`).  A produced token is pushed unless it is `Ignore`, exactly as in
the source. -/
def tokenizeLoop : Nat → List Token → List Char → Option (Except ParserError (List Token))
  | _, tokens, [] => some (.ok tokens)
  | 0, _, _ :: _ => none
  | fuel + 1, tokens, c :: cs =>
    match nextToken tokens c cs with
    | none => none
    | some (.error e) => some (.error e)
    | some (.ok (t, rest)) =>
      tokenizeLoop fuel (if t == Token.Ignore then tokens else tokens ++ [t]) rest

/-- The implicit-multiplication pair test of `expand_implicit_mul`
(`src/token.rs`): first is an atom or `)`, second is an atom or `(`. -/
def implicitPair (a b : Token) : Bool :=
  (a.is_atom || a == Token.ParenEnd) && (b.is_atom || b == Token.ParenStart)

/-- The `insert_indices` accumulation of `expand_implicit_mul`
(`src/token.rs`): for each adjacent window `(first, second)` at position
`i` that matches `implicitPair`, record index `i + 1`. -/
def insertIndicesFrom : List Token → Nat → List Nat
  | a :: b :: rest, i =>
    (if implicitPair a b then [i + 1] else []) ++ insertIndicesFrom (b :: rest) (i + 1)
  | _, _ => []

/-- `Vec::insert` at an index, as used by `expand_implicit_mul`; all
indices produced by `insertIndicesFrom` are in range, so the out-of-range
case (a Rust panic) is never reached by the code below. -/
def insertAt (i : Nat) (x : Token) : List Token → List Token
  | l =>
    match i, l with
    | 0, l => x :: l
    | _ + 1, [] => [x]
    | j + 1, a :: l => a :: insertAt j x l

/-- `expand_implicit_mul` from `src/token.rs`: collect the insertion
indices over all adjacent windows, then insert a `Times` at each index,
iterating over the collected indices in reverse. -/
def expand_implicit_mul (tokens : List Token) : List Token :=
  (insertIndicesFrom tokens 0).reverse.foldl (fun acc i => insertAt i Token.Times acc) tokens

/-- `tokenize` from `src/token.rs`: run the character loop, then the
implicit-multiplication post-pass. -/
def tokenize (source : String) : Option (Except ParserError (List Token)) :=
  match tokenizeLoop source.toList.length [] source.toList with
  | none => none
  | some (.error e) => some (.error e)
  | some (.ok tokens) => some (.ok (expand_implicit_mul tokens))

example : tokenize "1+2*3" =
    some (.ok [Token.Number 1, Token.Plus, Token.Number 2, Token.Times, Token.Number 3]) := rfl

example : tokenize "1--1" =
    some (.ok [Token.Number 1, Token.Minus, Token.UnaryMinus, Token.Number 1]) := rfl

example : tokenize "2pi" = some (.ok [Token.Number 2, Token.Times, Token.Pi]) := rfl

example : tokenize ".4" = some (.ok [Token.Number (mkRat 4 10)]) := by decide

example : tokenize "12." = some (.ok [Token.Number 12]) := by decide

example : mkRat 4 10 = (0.4 : ℚ) := by norm_num

/-- `UnaryOpType` from the AST consumed by `src/eval.rs` (variants exactly
as matched there: `Negate` and `Noop`; the spec calls `Noop`
"Identity"). -/
inductive UnaryOpType where
  | Negate
  | Noop
deriving DecidableEq, Repr

/-- `BinOpType` from the AST consumed by `src/eval.rs`. -/
inductive BinOpType where
  | Add
  | Sub
  | Mul
  | Div
  | Pow
deriving DecidableEq, Repr

/-- `Expr` — the AST type.  Its declaration file is not among the sources,
but `src/eval.rs` matches exhaustively on exactly these variants
(`Number`, `E`, `Pi`, `UnaryOp`, `BinOp`), which pins the type down; the
spec's §3 data model lists the same variants.  `f32` payloads are exact
rationals as everywhere in this development. -/
inductive Expr where
  | Number (v : ℚ)
  | E
  | Pi
  | UnaryOp (k : UnaryOpType) (operand : Expr)
  | BinOp (l : Expr) (k : BinOpType) (r : Expr)
deriving DecidableEq, Repr

/-- An interpretation of the `f32` arithmetic primitives used by
`src/eval.rs`: the two constants `std::f32::consts::E` / `PI`, unary
negation, the four binary operators, `powf`, and the injection of a stored
number payload (`Number(v) → v`; in the exact model `lit` is the
identity).  Keeping these abstract lets the evaluator's structure be
verified without committing to IEEE semantics. -/
structure NumOps (α : Type) where
  lit : ℚ → α
  e : α
  pi : α
  neg : α → α
  add : α → α → α
  sub : α → α → α
  mul : α → α → α
  div : α → α → α
  powf : α → α → α

/-- `impl Eval for Expr` from `src/eval.rs`, case for case. -/
def Expr.eval {α : Type} (ops : NumOps α) : Expr → α
  | .Number num => ops.lit num
  | .E => ops.e
  | .Pi => ops.pi
  | .UnaryOp .Negate operand => ops.neg (operand.eval ops)
  | .UnaryOp .Noop operand => operand.eval ops
  | .BinOp left .Add right => ops.add (left.eval ops) (right.eval ops)
  | .BinOp left .Sub right => ops.sub (left.eval ops) (right.eval ops)
  | .BinOp left .Mul right => ops.mul (left.eval ops) (right.eval ops)
  | .BinOp left .Div right => ops.div (left.eval ops) (right.eval ops)
  | .BinOp left .Pow right => ops.powf (left.eval ops) (right.eval ops)

/-- Modelled from the spec: `apply_op` of the shunting-yard `Parser`
(§4.2).  The `Parser` itself is absent from the sources (the `parser.rs`
present is an earlier recursive-descent parser over a different token type,
not the one `main.rs` calls); §4.2 specifies: pop one operand for a unary
operator, two for a binary one (right before left), build the node, push it
back; popping from an empty output stack is `NotEnoughOperands`.  A
non-operator token maps to the `UnexpectedOperator` error declared in
`src/lib.rs`. -/
def applyOp (t : Token) (output : List Expr) : Except ParserError (List Expr) :=
  match t with
  | .UnaryPlus =>
    match output with
    | x :: rest => .ok (.UnaryOp .Noop x :: rest)
    | [] => .error .NotEnoughOperands
  | .UnaryMinus =>
    match output with
    | x :: rest => .ok (.UnaryOp .Negate x :: rest)
    | [] => .error .NotEnoughOperands
  | .Plus =>
    match output with
    | r :: l :: rest => .ok (.BinOp l .Add r :: rest)
    | _ => .error .NotEnoughOperands
  | .Minus =>
    match output with
    | r :: l :: rest => .ok (.BinOp l .Sub r :: rest)
    | _ => .error .NotEnoughOperands
  | .Times =>
    match output with
    | r :: l :: rest => .ok (.BinOp l .Mul r :: rest)
    | _ => .error .NotEnoughOperands
  | .Slash =>
    match output with
    | r :: l :: rest => .ok (.BinOp l .Div r :: rest)
    | _ => .error .NotEnoughOperands
  | .TimesTimes =>
    match output with
    | r :: l :: rest => .ok (.BinOp l .Pow r :: rest)
    | _ => .error .NotEnoughOperands
  | t => .error (.UnexpectedOperator t)

/-- Modelled from the spec: the operator-arrival reduction of §4.2 — pop
and apply the top of the operator stack while it is not `(` and it has
strictly higher precedence than the incoming operator, or equal precedence
when the incoming operator is left-associative.  Precedence and
associativity come from `Token::op_prec` / `Token::is_left_assoc` in
`src/token.rs`. -/
def popWhileHigher (incoming : Token) :
    List Token → List Expr → Except ParserError (List Token × List Expr)
  | [], output => .ok ([], output)
  | top :: ops, output =>
    if top != Token.ParenStart
        && (incoming.op_prec < top.op_prec
          || (top.op_prec == incoming.op_prec && incoming.is_left_assoc)) then
      match applyOp top output with
      | .error e => .error e
      | .ok output2 => popWhileHigher incoming ops output2
    else .ok (top :: ops, output)

/-- Modelled from the spec: the `)` reduction of §4.2 — pop and apply
operators until a `(` is found and discard it; if the operator stack
empties first, fail with `MismatchedParenthesis`. -/
def popUntilParen :
    List Token → List Expr → Except ParserError (List Token × List Expr)
  | [], _ => .error .MismatchedParenthesis
  | .ParenStart :: ops, output => .ok (ops, output)
  | top :: ops, output =>
    match applyOp top output with
    | .error e => .error e
    | .ok output2 => popUntilParen ops output2

/-- Modelled from the spec: the end-of-input drain of §4.2 harmonized with
the authoritative §8 scenarios (per §9): remaining operators are popped
and applied; a parenthesis still on the stack means the input was
unbalanced, which §8 pins to `MismatchedParenthesis`
(`parse(tokenize("(1+2"))` fails with it). -/
def drainOps : List Token → List Expr → Except ParserError (List Expr)
  | [], output => .ok output
  | top :: ops, output =>
    if top.is_paren then .error .MismatchedParenthesis
    else
      match applyOp top output with
      | .error e => .error e
      | .ok output2 => drainOps ops output2

/-- Modelled from the spec: the token-consuming loop of the shunting-yard
`Parser` (§4.2), carrying the operator stack and the output stack.  After
the last token: drain the operator stack, then require exactly one
expression on the output stack (`[]` is `NotEnoughOperands`, two or more is
`TooMuchOperands`).  The internal `Ignore` token never appears in a lexed
sequence; it is rejected as an unexpected operator. -/
def parseLoop : List Token → List Token → List Expr → Except ParserError Expr
  | [], ops, output =>
    match drainOps ops output with
    | .error e => .error e
    | .ok [e] => .ok e
    | .ok [] => .error .NotEnoughOperands
    | .ok _ => .error .TooMuchOperands
  | t :: ts, ops, output =>
    match t with
    | .Number v => parseLoop ts ops (.Number v :: output)
    | .E => parseLoop ts ops (.E :: output)
    | .Pi => parseLoop ts ops (.Pi :: output)
    | .ParenStart => parseLoop ts (.ParenStart :: ops) output
    | .ParenEnd =>
      match popUntilParen ops output with
      | .error e => .error e
      | .ok (ops2, output2) => parseLoop ts ops2 output2
    | .Ignore => .error (.UnexpectedOperator .Ignore)
    | op =>
      match popWhileHigher op ops output with
      | .error e => .error e
      | .ok (ops2, output2) => parseLoop ts (op :: ops2) output2

/-- Modelled from the spec: `Parser::parse` (§4.2, the `parse` external
interface of §6) — run the shunting-yard loop on the full token sequence
with empty stacks. -/
def parse (tokens : List Token) : Except ParserError Expr :=
  parseLoop tokens [] []

example : parse [Token.Number 1, Token.Plus, Token.Number 2, Token.Times, Token.Number 3]
    = .ok (.BinOp (.Number 1) .Add (.BinOp (.Number 2) .Mul (.Number 3))) := rfl

example : parse [Token.Number 1, Token.Minus, Token.Number 2, Token.Minus, Token.Number 3]
    = .ok (.BinOp (.BinOp (.Number 1) .Sub (.Number 2)) .Sub (.Number 3)) := rfl

example : parse [Token.Number 2, Token.TimesTimes, Token.Number 3, Token.TimesTimes,
    Token.Number 2]
    = .ok (.BinOp (.Number 2) .Pow (.BinOp (.Number 3) .Pow (.Number 2))) := rfl

example : parse [Token.ParenStart, Token.Number 1, Token.Plus, Token.Number 2]
    = .error .MismatchedParenthesis := rfl

example : parse [Token.Number 1, Token.Plus, Token.Number 2, Token.ParenEnd]
    = .error .MismatchedParenthesis := rfl

example : parse [Token.UnaryMinus, Token.Number 1]
    = .ok (.UnaryOp .Negate (.Number 1)) := rfl

/-- The implicit-multiplication post-pass as worded by the spec (§4.1):
scan consecutive pairs left to right and put a single synthetic `Times`
between every pair `(A, B)` with `A` an atom or `)` and `B` an atom or
`(`; used as the specification side of the refinement proof for
`expand_implicit_mul`. -/
def expand_implicit_mul_spec : List Token → List Token
  | a :: b :: rest =>
    if implicitPair a b then a :: Token.Times :: expand_implicit_mul_spec (b :: rest)
    else a :: expand_implicit_mul_spec (b :: rest)
  | l => l

theorem takeDigits_fst_digits : ∀ cs : List Char, ∀ c ∈ (takeDigits cs).1, c.isDigit = true := by
  intro cs
  induction cs with
  | nil => simp [takeDigits]
  | cons c cs ih =>
    by_cases h : c.isDigit
    · simp only [takeDigits, if_pos h]
      intro d hd
      rcases List.mem_cons.mp hd with rfl | hd2
      · exact h
      · exact ih d hd2
    · simp [takeDigits, h]

theorem takeDigits_snd_len : ∀ cs : List Char, (takeDigits cs).2.length ≤ cs.length := by
  intro cs
  induction cs with
  | nil => simp [takeDigits]
  | cons c cs ih =>
    by_cases h : c.isDigit
    · simp only [takeDigits, if_pos h]
      exact Nat.le_succ_of_le ih
    · simp [takeDigits, h]

theorem digit_ne_dot {c : Char} (h : c.isDigit = true) : (c == '.') = false := by
  cases hb : c == '.'
  · rfl
  · rw [beq_iff_eq] at hb
    subst hb
    simp [Char.isDigit] at h

theorem all_digits_filter_dot {ds : List Char} (h : ∀ c ∈ ds, c.isDigit = true) :
    ds.filter (fun c => c == '.') = [] := by
  rw [List.filter_eq_nil_iff]
  intro c hc
  simp [digit_ne_dot (h c hc)]

/-- Any accumulator of the shape `fd :: digits` headed by a digit is a
valid float string. -/
theorem validFloatChars_digit_digits {fd : Char} {ds : List Char}
    (hfd : fd.isDigit = true) (hds : ∀ c ∈ ds, c.isDigit = true) :
    validFloatChars (fd :: ds) = true := by
  simp only [validFloatChars, Bool.and_eq_true, List.any_eq_true, List.all_eq_true,
    decide_eq_true_eq]
  refine ⟨⟨⟨fd, List.mem_cons_self _ _, hfd⟩, ?_⟩, ?_⟩
  · intro c hc
    rcases List.mem_cons.mp hc with rfl | hc2
    · simp [hfd]
    · simp [hds c hc2]
  · simp [List.filter_cons, digit_ne_dot hfd, all_digits_filter_dot hds]

/-- Any accumulator of the shape `fd :: digits ++ '.' :: digits` headed by
a digit is a valid float string. -/
theorem validFloatChars_digit_dot {fd : Char} {ds ds2 : List Char}
    (hfd : fd.isDigit = true) (hds : ∀ c ∈ ds, c.isDigit = true)
    (hds2 : ∀ c ∈ ds2, c.isDigit = true) :
    validFloatChars (fd :: ds ++ '.' :: ds2) = true := by
  simp only [validFloatChars, Bool.and_eq_true, List.any_eq_true, List.all_eq_true,
    decide_eq_true_eq]
  refine ⟨⟨⟨fd, by simp, hfd⟩, ?_⟩, ?_⟩
  · intro c hc
    simp only [List.cons_append, List.mem_cons, List.mem_append] at hc
    rcases hc with rfl | hc2 | rfl | hc3
    · simp [hfd]
    · simp [hds c hc2]
    · simp
    · simp [hds2 c hc3]
  · simp [List.filter_cons, List.filter_append, digit_ne_dot hfd,
      all_digits_filter_dot hds, all_digits_filter_dot hds2]

/-- Any accumulator `'.' :: digits` with at least one digit is a valid
float string. -/
theorem validFloatChars_dot_digits {ds : List Char} (hne : ds ≠ [])
    (hds : ∀ c ∈ ds, c.isDigit = true) :
    validFloatChars ('.' :: ds) = true := by
  simp only [validFloatChars, Bool.and_eq_true, List.any_eq_true, List.all_eq_true,
    decide_eq_true_eq]
  rcases ds with _ | ⟨d, ds'⟩
  · exact absurd rfl hne
  refine ⟨⟨⟨d, by simp, hds d (by simp)⟩, ?_⟩, ?_⟩
  · intro c hc
    rcases List.mem_cons.mp hc with rfl | hc2
    · simp
    · simp [hds c hc2]
  · simp [List.filter_cons, all_digits_filter_dot hds]

theorem tokenize_number_go_no_panic {acc rest : List Char}
    (h : validFloatChars acc = true) : tokenize_number_go acc rest ≠ Except.ok none := by
  simp [tokenize_number_go, rustParseF32, h]

/-- The `unwrap` in `tokenize_number` never panics: for the first
characters `tokenize` can pass in (a digit or a dot), the accumulated
string always parses as a float. -/
theorem tokenize_number_no_panic (fd : Char) (cs : List Char)
    (h : fd.isDigit = true ∨ fd = '.') :
    tokenize_number fd cs ≠ Except.ok none := by
  have hds := takeDigits_fst_digits cs
  unfold tokenize_number
  by_cases h1 : (fd == '.' && (fd :: (takeDigits cs).1).length == 1) = true
  · rw [if_pos h1]
    intro hcon
    exact Except.noConfusion hcon
  · rw [if_neg h1]
    by_cases h2 : (fd != '.') = true
    · rw [if_pos h2]
      have hdig : fd.isDigit = true := by
        rcases h with hd | rfl
        · exact hd
        · simp at h2
      split
      next cs2 _ =>
        exact tokenize_number_go_no_panic
          (validFloatChars_digit_dot hdig hds (takeDigits_fst_digits cs2))
      next =>
        exact tokenize_number_go_no_panic (validFloatChars_digit_digits hdig hds)
    · rw [if_neg h2]
      have hdot : fd = '.' := by
        simpa [bne] using h2
      subst hdot
      have hnil : (takeDigits cs).1 ≠ [] := by
        intro hn
        exact h1 (by simp [hn])
      exact tokenize_number_go_no_panic (validFloatChars_dot_digits hnil hds)

theorem tokenize_number_go_rest {acc rest : List Char} {t : Token} {r : List Char}
    (h : tokenize_number_go acc rest = Except.ok (some (t, r))) : r = rest := by
  unfold tokenize_number_go at h
  split at h
  · simp only [Except.ok.injEq, Option.some.injEq, Prod.mk.injEq] at h
    exact h.2.symm
  · simp at h

/-- `tokenize_number` consumes characters only from its input: the
unconsumed remainder is no longer than the input. -/
theorem tokenize_number_rest_len {fd : Char} {cs : List Char} {t : Token} {r : List Char}
    (h : tokenize_number fd cs = Except.ok (some (t, r))) : r.length ≤ cs.length := by
  unfold tokenize_number at h
  split at h
  · simp at h
  · split at h
    · split at h
      next cs2 heq =>
        have h1 := tokenize_number_go_rest h
        have h2 := takeDigits_snd_len cs2
        have h3 := takeDigits_snd_len cs
        rw [heq] at h3
        subst h1
        simp only [List.length_cons] at h3
        omega
      next =>
        have h1 := tokenize_number_go_rest h
        subst h1
        exact takeDigits_snd_len cs
    · have h1 := tokenize_number_go_rest h
      subst h1
      exact takeDigits_snd_len cs

/-- Case analysis for one step of the tokenizer loop: `nextToken` never
panics, and on success the remaining input is no longer than before. -/
theorem nextToken_cases (tokens : List Token) (c : Char) (cs : List Char) :
    (∃ e, nextToken tokens c cs = some (.error e)) ∨
    (∃ t rest, nextToken tokens c cs = some (.ok (t, rest)) ∧ rest.length ≤ cs.length) := by
  unfold nextToken
  split
  · exact .inr ⟨_, cs, rfl, Nat.le_refl _⟩
  · exact .inr ⟨_, cs, rfl, Nat.le_refl _⟩
  · split
    next cs2 => exact .inr ⟨_, cs2, rfl, by simp⟩
    next => exact .inr ⟨_, cs, rfl, Nat.le_refl _⟩
  · exact .inr ⟨_, cs, rfl, Nat.le_refl _⟩
  · exact .inr ⟨_, cs, rfl, Nat.le_refl _⟩
  · exact .inr ⟨_, cs, rfl, Nat.le_refl _⟩
  · exact .inr ⟨_, cs, rfl, Nat.le_refl _⟩
  · split
    next cs2 => exact .inr ⟨_, cs2, rfl, by simp⟩
    next => exact .inl ⟨_, rfl⟩
  · by_cases hd : c.isDigit = true
    · rw [if_pos hd]
      split
      next e _ => exact .inl ⟨e, rfl⟩
      next heq => exact absurd heq (tokenize_number_no_panic c cs (.inl hd))
      next t rest heq => exact .inr ⟨t, rest, rfl, tokenize_number_rest_len heq⟩
    · rw [if_neg hd]
      by_cases hdot : (c == '.') = true
      · rw [if_pos hdot]
        split
        next e _ => exact .inl ⟨e, rfl⟩
        next heq =>
          exact absurd heq (tokenize_number_no_panic c cs (.inr (beq_iff_eq.mp hdot)))
        next t rest heq => exact .inr ⟨t, rest, rfl, tokenize_number_rest_len heq⟩
      · rw [if_neg hdot]
        by_cases hw : c.isWhitespace = true
        · rw [if_pos hw]
          exact .inr ⟨_, cs, rfl, Nat.le_refl _⟩
        · rw [if_neg hw]
          exact .inl ⟨_, rfl⟩

/-- With fuel at least the number of remaining characters, the tokenizer
loop always returns a `Result` (the model never reaches the panic value):
each iteration consumes at least one character. -/
theorem tokenizeLoop_isSome : ∀ (fuel : Nat) (tokens : List Token) (cs : List Char),
    cs.length ≤ fuel → (tokenizeLoop fuel tokens cs).isSome = true := by
  intro fuel
  induction fuel with
  | zero =>
    intro tokens cs h
    cases cs with
    | nil => simp [tokenizeLoop]
    | cons c cs2 => simp at h
  | succ n ih =>
    intro tokens cs h
    cases cs with
    | nil => simp [tokenizeLoop]
    | cons c cs2 =>
      rcases nextToken_cases tokens c cs2 with ⟨e, he⟩ | ⟨t, rest, he, hlen⟩
      · simp [tokenizeLoop, he]
      · simp only [tokenizeLoop, he]
        refine ih _ rest ?_
        simp only [List.length_cons, Nat.succ_le_succ_iff] at h
        omega

/-- Loop invariant: starting from an `Ignore`-free accumulator, the
tokenizer loop never emits the `Ignore` token (the push is guarded by
`token != Ignore`). -/
theorem tokenizeLoop_no_ignore :
    ∀ (fuel : Nat) (tokens : List Token) (cs : List Char) (out : List Token),
      tokenizeLoop fuel tokens cs = some (.ok out) →
      Token.Ignore ∉ tokens → Token.Ignore ∉ out := by
  intro fuel
  induction fuel with
  | zero =>
    intro tokens cs out h ht
    cases cs with
    | nil =>
      simp only [tokenizeLoop, Option.some.injEq, Except.ok.injEq] at h
      exact h ▸ ht
    | cons c cs2 => simp [tokenizeLoop] at h
  | succ n ih =>
    intro tokens cs out h ht
    cases cs with
    | nil =>
      simp only [tokenizeLoop, Option.some.injEq, Except.ok.injEq] at h
      exact h ▸ ht
    | cons c cs2 =>
      simp only [tokenizeLoop] at h
      cases he : nextToken tokens c cs2 with
      | none => rw [he] at h; simp at h
      | some r =>
        cases r with
        | error e => rw [he] at h; simp at h
        | ok p =>
          rcases p with ⟨t, rest⟩
          rw [he] at h
          simp only at h
          by_cases hti : t = Token.Ignore
          · subst hti
            simp only [beq_self_eq_true, if_true] at h
            exact ih _ rest out h ht
          · have hne : (t == Token.Ignore) = false := by simp [hti]
            rw [hne] at h
            simp only [Bool.false_eq_true, if_false] at h
            refine ih _ rest out h ?_
            intro hmem
            rcases List.mem_append.mp hmem with hmem2 | hmem2
            · exact ht hmem2
            · exact hti (List.mem_singleton.mp hmem2).symm

/-- Every token in the spec-worded implicit-multiplication rewrite is
either an original token or an inserted `Times`. -/
theorem mem_expand_spec {x : Token} :
    ∀ ts : List Token, x ∈ expand_implicit_mul_spec ts → x ∈ ts ∨ x = Token.Times := by
  intro ts
  induction ts with
  | nil => simp [expand_implicit_mul_spec]
  | cons a tail ih =>
    cases tail with
    | nil =>
      simp only [expand_implicit_mul_spec, List.mem_singleton]
      tauto
    | cons b rest =>
      intro hx
      unfold expand_implicit_mul_spec at hx
      by_cases hp : implicitPair a b = true
      · rw [if_pos hp] at hx
        rcases List.mem_cons.mp hx with rfl | hx2
        · exact .inl (by simp)
        · rcases List.mem_cons.mp hx2 with rfl | hx3
          · exact .inr rfl
          · rcases ih hx3 with hin | heq
            · exact .inl (List.mem_cons_of_mem _ hin)
            · exact .inr heq
      · rw [if_neg hp] at hx
        rcases List.mem_cons.mp hx with rfl | hx2
        · exact .inl (by simp)
        · rcases ih hx2 with hin | heq
          · exact .inl (List.mem_cons_of_mem _ hin)
          · exact .inr heq

theorem insertIndicesFrom_shift (ts : List Token) :
    ∀ i, insertIndicesFrom ts (i + 1) = (insertIndicesFrom ts i).map (fun j => j + 1) := by
  induction ts with
  | nil => intro i; rfl
  | cons a tail ih =>
    intro i
    cases tail with
    | nil => rfl
    | cons b rest =>
      simp only [insertIndicesFrom, List.map_append, ih (i + 1)]
      cases hp : implicitPair a b <;> simp

theorem foldl_insertAt_shift (idxs : List Nat) :
    ∀ (a : Token) (l : List Token),
      List.foldl (fun acc i => insertAt i Token.Times acc) (a :: l)
          (idxs.map (fun j => j + 1))
        = a :: List.foldl (fun acc i => insertAt i Token.Times acc) l idxs := by
  induction idxs with
  | nil => intro a l; rfl
  | cons j rest ih =>
    intro a l
    simp only [List.map_cons, List.foldl_cons]
    exact ih a (insertAt j Token.Times l)

/-- Refinement: the index-collecting, reverse-inserting
`expand_implicit_mul` of `src/token.rs` computes exactly the left-to-right
single-`Times`-per-matching-pair rewrite worded by the spec. -/
theorem expand_eq_spec :
    ∀ ts : List Token, expand_implicit_mul ts = expand_implicit_mul_spec ts := by
  intro ts
  induction ts with
  | nil => rfl
  | cons a tail ih =>
    cases tail with
    | nil => rfl
    | cons b rest =>
      have h1 : insertIndicesFrom (a :: b :: rest) 0
          = (if implicitPair a b then [1] else [])
            ++ (insertIndicesFrom (b :: rest) 0).map (fun j => j + 1) := by
        simp only [insertIndicesFrom]
        rw [insertIndicesFrom_shift]
      show (insertIndicesFrom (a :: b :: rest) 0).reverse.foldl
          (fun acc i => insertAt i Token.Times acc) (a :: b :: rest)
          = expand_implicit_mul_spec (a :: b :: rest)
      rw [h1]
      cases hp : implicitPair a b with
      | true =>
        simp only [if_pos rfl, List.reverse_append, List.reverse_cons, List.reverse_nil,
          List.nil_append, List.foldl_append, ← List.map_reverse]
        rw [foldl_insertAt_shift]
        have : List.foldl (fun acc i => insertAt i Token.Times acc) (b :: rest)
            (insertIndicesFrom (b :: rest) 0).reverse = expand_implicit_mul (b :: rest) := rfl
        rw [this, ih]
        simp [expand_implicit_mul_spec, hp, insertAt]
      | false =>
        simp only [Bool.false_eq_true, if_false, List.nil_append, ← List.map_reverse]
        rw [foldl_insertAt_shift]
        have : List.foldl (fun acc i => insertAt i Token.Times acc) (b :: rest)
            (insertIndicesFrom (b :: rest) 0).reverse = expand_implicit_mul (b :: rest) := rfl
        rw [this, ih]
        simp [expand_implicit_mul_spec, hp]

example : tokenize "." =
    some (.error (.Tokenize "A single dot is not a valid number !")) := rfl

example : tokenize "2**3**2" =
    some (.ok [Token.Number 2, Token.TimesTimes, Token.Number 3, Token.TimesTimes,
      Token.Number 2]) := rfl

theorem is_before_unary_iff (t : Token) :
    t.is_before_unary = true ↔ (t.is_op = true ∨ t = Token.ParenStart) := by
  cases t <;> simp [Token.is_before_unary, Token.is_op]

/-- A concrete exact-rational interpretation of the arithmetic primitives,
used only to witness the evaluation claims at concrete inputs; its `powf`
is exact real power restricted to natural exponents (all the witnessed
computations use natural exponents, on which `f32::powf` is also exact),
and the two constants are unused by the witnessed computations. -/
def qOps : NumOps ℚ where
  lit := id
  e := 0
  pi := 0
  neg := Neg.neg
  add := fun x y => x + y
  sub := fun x y => x - y
  mul := fun x y => x * y
  div := fun x y => x / y
  powf := fun x y => if 0 ≤ y.num ∧ y.den = 1 then x ^ y.num.toNat else 0

theorem qOps_powf_nat (x : ℚ) (n : ℕ) : qOps.powf x (n : ℚ) = x ^ n := by
  simp [qOps]

/-- C1: binary `+`, `-`, `*` are left-associative — for any three operands
joined by two same-precedence operators from that set, the parser groups
from the left, producing the tree of `(a ∘ b) ∘ c`. -/
theorem spec_c1_parse_left_assoc (a b c : ℚ) (o1 o2 : Token) (k1 k2 : BinOpType)
    (h1 : o1 = Token.Plus ∧ k1 = BinOpType.Add ∨ o1 = Token.Minus ∧ k1 = BinOpType.Sub
      ∨ o1 = Token.Times ∧ k1 = BinOpType.Mul)
    (h2 : o2 = Token.Plus ∧ k2 = BinOpType.Add ∨ o2 = Token.Minus ∧ k2 = BinOpType.Sub
      ∨ o2 = Token.Times ∧ k2 = BinOpType.Mul)
    (hsame : o1.op_prec = o2.op_prec) :
    parse [Token.Number a, o1, Token.Number b, o2, Token.Number c]
      = .ok (.BinOp (.BinOp (.Number a) k1 (.Number b)) k2 (.Number c)) := by
  rcases h1 with ⟨rfl, rfl⟩ | ⟨rfl, rfl⟩ | ⟨rfl, rfl⟩ <;>
    rcases h2 with ⟨rfl, rfl⟩ | ⟨rfl, rfl⟩ | ⟨rfl, rfl⟩ <;>
    first
      | rfl
      | exact absurd hsame (by decide)

theorem spec_c1_parse_left_assoc_witness :
    tokenize "1-2-3"
      = some (.ok [Token.Number 1, Token.Minus, Token.Number 2, Token.Minus, Token.Number 3])
    ∧ parse [Token.Number 1, Token.Minus, Token.Number 2, Token.Minus, Token.Number 3]
      = .ok (.BinOp (.BinOp (.Number 1) .Sub (.Number 2)) .Sub (.Number 3)) :=
  ⟨rfl, spec_c1_parse_left_assoc 1 2 3 Token.Minus Token.Minus BinOpType.Sub BinOpType.Sub
    (.inr (.inl ⟨rfl, rfl⟩)) (.inr (.inl ⟨rfl, rfl⟩)) rfl⟩

/-- C2: parsing an unbalanced-parenthesis input fails with
`MismatchedParenthesis`: both `(1+2` (open never closed) and `1+2)` (stray
close) tokenize fine and then fail in the parser with exactly that
error. -/
theorem spec_c2_mismatched_parenthesis :
    tokenize "(1+2"
      = some (.ok [Token.ParenStart, Token.Number 1, Token.Plus, Token.Number 2])
    ∧ parse [Token.ParenStart, Token.Number 1, Token.Plus, Token.Number 2]
      = .error .MismatchedParenthesis
    ∧ tokenize "1+2)"
      = some (.ok [Token.Number 1, Token.Plus, Token.Number 2, Token.ParenEnd])
    ∧ parse [Token.Number 1, Token.Plus, Token.Number 2, Token.ParenEnd]
      = .error .MismatchedParenthesis :=
  ⟨rfl, rfl, rfl, rfl⟩

/-- C3: the evaluator is a pure total function (a Lean function on `Expr`)
and satisfies, node by node and for every interpretation of the `f32`
primitives: `Number v ↦ v` (the stored payload), `E`/`Pi` to the two
constants, `Negate` to negation, `Noop` (the spec's "Identity") to the
operand, and `Add`/`Sub`/`Mul`/`Div`/`Pow` to the corresponding binary
primitive applied to the children, with no failure path. -/
theorem spec_c3_eval_node_semantics (α : Type) (ops : NumOps α) (v : ℚ) (x l r : Expr) :
    Expr.eval ops (.Number v) = ops.lit v
    ∧ Expr.eval ops .E = ops.e
    ∧ Expr.eval ops .Pi = ops.pi
    ∧ Expr.eval ops (.UnaryOp .Negate x) = ops.neg (Expr.eval ops x)
    ∧ Expr.eval ops (.UnaryOp .Noop x) = Expr.eval ops x
    ∧ Expr.eval ops (.BinOp l .Add r) = ops.add (Expr.eval ops l) (Expr.eval ops r)
    ∧ Expr.eval ops (.BinOp l .Sub r) = ops.sub (Expr.eval ops l) (Expr.eval ops r)
    ∧ Expr.eval ops (.BinOp l .Mul r) = ops.mul (Expr.eval ops l) (Expr.eval ops r)
    ∧ Expr.eval ops (.BinOp l .Div r) = ops.div (Expr.eval ops l) (Expr.eval ops r)
    ∧ Expr.eval ops (.BinOp l .Pow r) = ops.powf (Expr.eval ops l) (Expr.eval ops r) :=
  ⟨rfl, rfl, rfl, rfl, rfl, rfl, rfl, rfl, rfl, rfl⟩

/-- C4: a `+` or `-` character lexes as `UnaryPlus`/`UnaryMinus` exactly
when no token has been emitted yet or the last emitted token is an operator
or an opening parenthesis, and as binary `Plus`/`Minus` otherwise; in
particular `tokenize "1--1"` is `[Number 1, Minus, UnaryMinus,
Number 1]`. -/
theorem spec_c4_unary_disambiguation :
    (∀ (tokens : List Token) (cs : List Char),
      (nextToken tokens '+' cs = some (.ok (Token.UnaryPlus, cs)) ↔
        (tokens.getLast? = none
          ∨ ∃ p, tokens.getLast? = some p ∧ (p.is_op = true ∨ p = Token.ParenStart)))
      ∧ (nextToken tokens '+' cs = some (.ok (Token.Plus, cs)) ↔
        ¬(tokens.getLast? = none
          ∨ ∃ p, tokens.getLast? = some p ∧ (p.is_op = true ∨ p = Token.ParenStart)))
      ∧ (nextToken tokens '-' cs = some (.ok (Token.UnaryMinus, cs)) ↔
        (tokens.getLast? = none
          ∨ ∃ p, tokens.getLast? = some p ∧ (p.is_op = true ∨ p = Token.ParenStart)))
      ∧ (nextToken tokens '-' cs = some (.ok (Token.Minus, cs)) ↔
        ¬(tokens.getLast? = none
          ∨ ∃ p, tokens.getLast? = some p ∧ (p.is_op = true ∨ p = Token.ParenStart))))
    ∧ tokenize "1--1"
      = some (.ok [Token.Number 1, Token.Minus, Token.UnaryMinus, Token.Number 1]) := by
  constructor
  · intro tokens cs
    cases hl : tokens.getLast? with
    | none => simp [nextToken, hl]
    | some p =>
      cases hb : p.is_before_unary with
      | true => simp [nextToken, hl, hb, ← is_before_unary_iff]
      | false => simp [nextToken, hl, hb, ← is_before_unary_iff]
  · rfl

/-- C5: the implicit-multiplication post-pass inserts exactly one `Times`
between each adjacent pair (atom-or-`)`, atom-or-`(`) and nothing anywhere
else — the source's index-collecting pass equals the spec's left-to-right
rewrite on every token sequence — and in particular `2pi` lexes to
`[Number 2, Times, Pi]` and `(1)(2)` gets exactly one `Times` between the
groups. -/
theorem spec_c5_implicit_multiplication :
    (∀ ts : List Token, expand_implicit_mul ts = expand_implicit_mul_spec ts)
    ∧ tokenize "2pi" = some (.ok [Token.Number 2, Token.Times, Token.Pi])
    ∧ tokenize "(1)(2)"
      = some (.ok [Token.ParenStart, Token.Number 1, Token.ParenEnd, Token.Times,
        Token.ParenStart, Token.Number 2, Token.ParenEnd]) :=
  ⟨expand_eq_spec, rfl, rfl⟩

/-- C6: multiplication binds tighter than addition — `1+2*3` parses as
`1+(2*3)` and evaluates to `7` (not `9`) under any interpretation whose
literal/add/mul primitives are the exact arithmetic ones (as `f32` is on
these small integers). -/
theorem spec_c6_mul_binds_tighter (ops : NumOps ℚ)
    (hlit : ∀ q, ops.lit q = q)
    (hadd : ∀ x y, ops.add x y = x + y)
    (hmul : ∀ x y, ops.mul x y = x * y) :
    tokenize "1+2*3"
      = some (.ok [Token.Number 1, Token.Plus, Token.Number 2, Token.Times, Token.Number 3])
    ∧ parse [Token.Number 1, Token.Plus, Token.Number 2, Token.Times, Token.Number 3]
      = .ok (.BinOp (.Number 1) .Add (.BinOp (.Number 2) .Mul (.Number 3)))
    ∧ Expr.eval ops (.BinOp (.Number 1) .Add (.BinOp (.Number 2) .Mul (.Number 3))) = 7 := by
  refine ⟨rfl, rfl, ?_⟩
  simp only [Expr.eval, hlit, hadd, hmul]
  norm_num

theorem spec_c6_mul_binds_tighter_witness :
    Expr.eval qOps (.BinOp (.Number 1) .Add (.BinOp (.Number 2) .Mul (.Number 3))) = 7 :=
  (spec_c6_mul_binds_tighter qOps (fun _ => rfl) (fun _ _ => rfl) (fun _ _ => rfl)).2.2

/-- C7: the power operator `**` is right-associative — `2**3**2` parses as
`2**(3**2)` and evaluates to `512` (not `64`) under any interpretation
whose literal primitive is the identity and whose `powf` is exact power on
natural exponents (as `f32::powf` is on these inputs). -/
theorem spec_c7_pow_right_assoc (ops : NumOps ℚ)
    (hlit : ∀ q, ops.lit q = q)
    (hpow : ∀ (x : ℚ) (n : ℕ), ops.powf x (n : ℚ) = x ^ n) :
    tokenize "2**3**2"
      = some (.ok [Token.Number 2, Token.TimesTimes, Token.Number 3, Token.TimesTimes,
        Token.Number 2])
    ∧ parse [Token.Number 2, Token.TimesTimes, Token.Number 3, Token.TimesTimes,
        Token.Number 2]
      = .ok (.BinOp (.Number 2) .Pow (.BinOp (.Number 3) .Pow (.Number 2)))
    ∧ Expr.eval ops (.BinOp (.Number 2) .Pow (.BinOp (.Number 3) .Pow (.Number 2))) = 512 := by
  refine ⟨rfl, rfl, ?_⟩
  have h32 : ops.powf 3 2 = 9 := by
    have h := hpow 3 2
    norm_num at h
    exact h
  have h29 : ops.powf 2 9 = 512 := by
    have h := hpow 2 9
    norm_num at h
    exact h
  simp only [Expr.eval, hlit, h32, h29]

theorem spec_c7_pow_right_assoc_witness :
    Expr.eval qOps (.BinOp (.Number 2) .Pow (.BinOp (.Number 3) .Pow (.Number 2))) = 512 :=
  (spec_c7_pow_right_assoc qOps (fun _ => rfl) qOps_powf_nat).2.2

/-- C8: number-literal lexing edge cases — a lone `.` is a tokenization
error, `.4` lexes to the single token `Number(0.4)`, and `12.` lexes to the
single token `Number(12.0)`. -/
theorem spec_c8_number_lexing_edge_cases :
    tokenize "." = some (.error (.Tokenize "A single dot is not a valid number !"))
    ∧ tokenize ".4" = some (.ok [Token.Number (0.4 : ℚ)])
    ∧ tokenize "12." = some (.ok [Token.Number 12]) := by
  refine ⟨rfl, ?_, by decide⟩
  rw [show (0.4 : ℚ) = mkRat 4 10 by norm_num]
  decide

/-- C9: the float conversion at the end of number lexing cannot fail — the
accumulated digit string always parses as a valid float, so the model of
`tokenize` never reaches the panic value on any input string. -/
theorem spec_c9_float_unwrap_total (s : String) : (tokenize s).isSome = true := by
  unfold tokenize
  have h := tokenizeLoop_isSome s.toList.length [] s.toList (Nat.le_refl _)
  cases hl : tokenizeLoop s.toList.length [] s.toList with
  | none => rw [hl] at h; simp at h
  | some r =>
    cases r with
    | error e => simp
    | ok toks => simp

/-- C10: on every successfully tokenized input, the returned token sequence
never contains the internal `Ignore` token — whitespace produces no output
token. -/
theorem spec_c10_no_ignore_token (s : String) (out : List Token)
    (h : tokenize s = some (.ok out)) : Token.Ignore ∉ out := by
  unfold tokenize at h
  cases hl : tokenizeLoop s.toList.length [] s.toList with
  | none => rw [hl] at h; simp at h
  | some r =>
    cases r with
    | error e => rw [hl] at h; simp at h
    | ok toks =>
      rw [hl] at h
      simp only [Option.some.injEq, Except.ok.injEq] at h
      subst h
      intro hmem
      rw [expand_eq_spec] at hmem
      rcases mem_expand_spec _ hmem with hin | heq
      · exact tokenizeLoop_no_ignore _ [] s.toList toks hl (by simp) hin
      · exact Token.noConfusion heq

theorem spec_c10_no_ignore_token_witness : Token.Ignore ∉ [Token.Number 1] :=
  spec_c10_no_ignore_token " 1 " [Token.Number 1] rfl
